import Mathlib

/-!
Shallow embedding of `podcast-archiver` (src/src/main.rs) and proofs about it.

The Rust program fetches an RSS feed and downloads episode enclosures
concurrently.  Pure helpers (`sanitize_filename`, the filename composition in
`main`, `save_episode_metadata`'s path computation) become Lean functions on
`List Char` / `String`; the stateful `download_episode` becomes a function from
an explicit `World` (filesystem plus network and write oracles) to a result
record; the scheduling loop of `main` becomes a recursive function over the
item list; the tokio semaphore becomes a labelled transition system.
-/

namespace PodcastArchiver

/-! ## Rust character / string primitives used by `sanitize_filename` -/

/-- Rust's `char::is_whitespace`: the Unicode `White_Space` property. -/
def rustIsWhitespace (c : Char) : Bool :=
  let n := c.toNat
  (9 ≤ n && n ≤ 13) || n == 32 || n == 133 || n == 160 || n == 0x1680 ||
    (0x2000 ≤ n && n ≤ 0x200A) || n == 0x2028 || n == 0x2029 || n == 0x202F ||
    n == 0x205F || n == 0x3000

/-- The nine characters `sanitize_filename` replaces with `'_'`. -/
def badChars : List Char := ['<', '>', ':', '\"', '/', '\\', '|', '?', '*']

/-- The per-character map of `sanitize_filename` (the `.chars().map(..)` closure):
invalid filename characters become `'_'`, tab/newline/carriage-return become a
space, everything else is kept. -/
def mapChar (c : Char) : Char :=
  if c ∈ badChars then '_'
  else if c = '\n' || c = '\r' || c = '\t' then ' '
  else c

/-- Accumulator-based model of Rust's `str::split_whitespace` on a char list:
splits on runs of Unicode whitespace and drops empty pieces.  `acc` holds the
current word, reversed. -/
def splitWsAux : List Char → List Char → List (List Char)
  | [], acc => if acc.isEmpty then [] else [acc.reverse]
  | c :: cs, acc =>
    if rustIsWhitespace c then
      if acc.isEmpty then splitWsAux cs [] else acc.reverse :: splitWsAux cs []
    else splitWsAux cs (c :: acc)

/-- Rust's `str::split_whitespace` (as a list of words). -/
def splitWs (l : List Char) : List (List Char) := splitWsAux l []

/-- Rust's `Vec::join(" ")` on the word list. -/
def joinWords : List (List Char) → List Char
  | [] => []
  | [w] => w
  | w :: ws => w ++ ' ' :: joinWords ws

/-- Rust's `str::trim`: drop Unicode whitespace from both ends. -/
def trimWs (l : List Char) : List Char :=
  ((l.dropWhile rustIsWhitespace).reverse.dropWhile rustIsWhitespace).reverse

/-- `sanitize_filename` from src/src/main.rs lines 160-177: map each character,
split on whitespace, join with single spaces, trim. -/
def sanitize_filename (title : String) : String :=
  ⟨trimWs (joinWords (splitWs (title.data.map mapChar)))⟩

/-- No two adjacent characters are both whitespace (runs of whitespace have
been collapsed). -/
def noWsRun : List Char → Bool
  | a :: b :: t => (!(rustIsWhitespace a && rustIsWhitespace b)) && noWsRun (b :: t)
  | _ => true

/-! ## Rust `str::replace` and the metadata path of `save_episode_metadata` -/

/-- Fuelled worker for Rust's `str::replace`: replace the leftmost,
non-overlapping occurrences of `pat` by `rep`, left to right.  The fuel is
an upper bound on the number of characters still to inspect. -/
def replaceAllCore : Nat → List Char → List Char → List Char → List Char
  | 0, _, _, s => s
  | _ + 1, _, _, [] => []
  | fuel + 1, pat, rep, c :: cs =>
    if pat ≠ [] ∧ pat.isPrefixOf (c :: cs) then
      rep ++ replaceAllCore fuel pat rep (List.drop (pat.length - 1) cs)
    else c :: replaceAllCore fuel pat rep cs

/-- Rust's `str::replace pat rep` on char lists (for non-empty `pat`). -/
def replaceAll (pat rep s : List Char) : List Char := replaceAllCore s.length pat rep s

/-- Whether `pat` occurs as a contiguous substring of `s`. -/
def hasSub (pat : List Char) : List Char → Bool
  | [] => pat.isEmpty
  | c :: cs => pat.isPrefixOf (c :: cs) || hasSub pat cs

/-- The metadata path computation of `save_episode_metadata` (src/src/main.rs
line 69): `filename.replace(".mp3", ".json").replace(".m4a", ".json").replace(".wav", ".json")`. -/
def metadata_filename (filename : String) : String :=
  ⟨replaceAll ".wav".data ".json".data
    (replaceAll ".m4a".data ".json".data
      (replaceAll ".mp3".data ".json".data filename.data))⟩

/-! ## Rust `Path::file_name` / `Path::extension`, as used on the enclosure URL -/

/-- Split a char list at `'/'`, keeping empty pieces (the raw components of a
Unix path).  `acc` holds the current piece, reversed. -/
def splitSlashAux : List Char → List Char → List (List Char)
  | [], acc => [acc.reverse]
  | c :: cs, acc =>
    if c = '/' then acc.reverse :: splitSlashAux cs [] else splitSlashAux cs (c :: acc)

/-- Rust's `Path::file_name` on a Unix path string: the last component after
dropping empty and `"."` components, unless that component is `".."`. -/
def pathFileName (p : String) : Option (List Char) :=
  let comps := (splitSlashAux p.data []).filter (fun s => !s.isEmpty && s ≠ ['.'])
  match comps.getLast? with
  | some c => if c = ['.', '.'] then none else some c
  | none => none

/-- Rust's extension rule on a file name: the part after the last `'.'`,
unless there is no `'.'` or the only candidate split leaves an empty stem
(a leading-dot file such as `".hidden"`). -/
def extOfName (name : List Char) : Option (List Char) :=
  let e := (name.reverse.takeWhile (fun c => c ≠ '.'))
  if e.length = name.length then none
  else if e.length + 1 = name.length then none
  else some e.reverse

/-- The extension computation of `main` (src/src/main.rs lines 212-215):
`Path::new(&url).extension().and_then(..).unwrap_or("mp3")`. -/
def original_extension (url : String) : String :=
  match (pathFileName url).bind extOfName with
  | some e => ⟨e⟩
  | none => "mp3"

/-! ## The publication-date prefix (chrono parsing, src/src/main.rs 222-233)

`chrono` is an external library; these definitions embed the behaviour of
`DateTime::parse_from_rfc2822` and
`NaiveDateTime::parse_from_str(s, "%a, %d %b %Y %H:%M:%S %z")` on the
RFC-2822-shaped inputs the program feeds them: an optional (resp. required)
three-letter weekday plus comma, a 1-2 digit day, an English three-letter
month, a four-digit year, `HH:MM[:SS]` (seconds required in the second
format), and a numeric `±HHMM` zone (or a standard zone name in the first
format).  Anything else fails, yielding an empty prefix. -/

/-- Try each `(pattern, value)` alternative as a prefix of `s`. -/
def parseAlt {α : Type} : List (List Char × α) → List Char → Option (α × List Char)
  | [], _ => none
  | (pat, v) :: rest, s =>
    if pat.isPrefixOf s then some (v, s.drop pat.length) else parseAlt rest s

def weekdayAlts : List (List Char × Unit) :=
  [("Mon".data, ()), ("Tue".data, ()), ("Wed".data, ()), ("Thu".data, ()),
   ("Fri".data, ()), ("Sat".data, ()), ("Sun".data, ())]

def monthAlts : List (List Char × Nat) :=
  [("Jan".data, 1), ("Feb".data, 2), ("Mar".data, 3), ("Apr".data, 4),
   ("May".data, 5), ("Jun".data, 6), ("Jul".data, 7), ("Aug".data, 8),
   ("Sep".data, 9), ("Oct".data, 10), ("Nov".data, 11), ("Dec".data, 12)]

def namedZoneAlts : List (List Char × Unit) :=
  [("GMT".data, ()), ("UT".data, ()), ("EST".data, ()), ("EDT".data, ()),
   ("CST".data, ()), ("CDT".data, ()), ("MST".data, ()), ("MDT".data, ()),
   ("PST".data, ()), ("PDT".data, ())]

def digitVal (c : Char) : Nat := c.toNat - 48

/-- Exactly two digits. -/
def parse2Digits : List Char → Option (Nat × List Char)
  | a :: b :: rest =>
    if a.isDigit && b.isDigit then some (10 * digitVal a + digitVal b, rest) else none
  | _ => none

/-- One or two digits (two preferred). -/
def parse1or2Digits : List Char → Option (Nat × List Char)
  | [] => none
  | [a] => if a.isDigit then some (digitVal a, []) else none
  | a :: b :: rest =>
    if a.isDigit then
      if b.isDigit then some (10 * digitVal a + digitVal b, rest)
      else some (digitVal a, b :: rest)
    else none

/-- Exactly four digits. -/
def parse4Digits : List Char → Option (Nat × List Char)
  | a :: b :: c :: d :: rest =>
    if a.isDigit && b.isDigit && c.isDigit && d.isDigit then
      some (1000 * digitVal a + 100 * digitVal b + 10 * digitVal c + digitVal d, rest)
    else none
  | _ => none

/-- At least one space, then any further spaces. -/
def space1 : List Char → Option (List Char)
  | ' ' :: rest => some (rest.dropWhile (fun c => c = ' '))
  | _ => none

/-- A `±HHMM` numeric zone. -/
def parseNumZone (s : List Char) : Option (List Char) :=
  match s with
  | c :: rest =>
    if c = '+' || c = '-' then
      match parse2Digits rest with
      | some (_, r1) =>
        match parse2Digits r1 with
        | some (_, r2) => some r2
        | none => none
      | none => none
    else none
  | [] => none

/-- A zone: numeric, or (when `allowNamed`) a standard RFC-2822 zone name. -/
def parseZone (allowNamed : Bool) (s : List Char) : Option (List Char) :=
  match parseNumZone s with
  | some r => some r
  | none =>
    if allowNamed then
      match parseAlt namedZoneAlts s with
      | some (_, r) => some r
      | none => none
    else none

def isLeapYear (y : Nat) : Bool := (y % 4 == 0 && y % 100 != 0) || y % 400 == 0

def daysInMonth (y m : Nat) : Nat :=
  if m = 2 then (if isLeapYear y then 29 else 28)
  else if m = 4 || m = 6 || m = 9 || m = 11 then 30
  else 31

/-- The shared core of the two chrono parses: `requireWeekday` and
`allowNamedZone`/`secondsOptional` distinguish `parse_from_rfc2822` from the
`"%a, %d %b %Y %H:%M:%S %z"` fallback.  Returns the calendar date. -/
def parseDateCore (requireWeekday secondsOptional allowNamedZone : Bool)
    (s : List Char) : Option (Nat × Nat × Nat) := do
  let s ←
    match parseAlt weekdayAlts s with
    | some (_, rest) =>
      match rest with
      | ',' :: r => some (r.dropWhile (fun c => c = ' '))
      | _ => none
    | none => if requireWeekday then none else some s
  let (d, s) ← parse1or2Digits s
  let s ← space1 s
  let (m, s) ← parseAlt monthAlts s
  let s ← space1 s
  let (y, s) ← parse4Digits s
  let s ← space1 s
  let (hh, s) ← parse2Digits s
  let s ← match s with | ':' :: r => some r | _ => none
  let (mi, s) ← parse2Digits s
  let (sec, s) ←
    match s with
    | ':' :: r => parse2Digits r
    | _ => if secondsOptional then some (0, s) else none
  let s ← space1 s
  let s ← parseZone allowNamedZone s
  let s := s.dropWhile (fun c => c = ' ')
  if s = [] ∧ 1 ≤ d ∧ d ≤ daysInMonth y m ∧ hh < 24 ∧ mi < 60 ∧ sec ≤ 60 then
    some (y, m, d)
  else none

/-- Model of `chrono::DateTime::parse_from_rfc2822`. -/
def parseRfc2822 (s : List Char) : Option (Nat × Nat × Nat) :=
  parseDateCore false true true s

/-- Model of `chrono::NaiveDateTime::parse_from_str` with
`"%a, %d %b %Y %H:%M:%S %z"`. -/
def parseNaiveFmt (s : List Char) : Option (Nat × Nat × Nat) :=
  parseDateCore true false false s

/-- Zero-pad the decimal digits of `n` to width 2. -/
def pad2 (n : Nat) : List Char :=
  let ds := Nat.toDigits 10 n
  List.replicate (2 - ds.length) '0' ++ ds

/-- Zero-pad the decimal digits of `n` to width 4 (chrono's `%Y`). -/
def pad4 (n : Nat) : List Char :=
  let ds := Nat.toDigits 10 n
  List.replicate (4 - ds.length) '0' ++ ds

/-- Chrono's `format("%Y-%m-%d - ")` on a parsed date. -/
def fmtYmdDash (ymd : Nat × Nat × Nat) : String :=
  ⟨pad4 ymd.1 ++ '-' :: pad2 ymd.2.1 ++ '-' :: pad2 ymd.2.2 ++ " - ".data⟩

/-- The date-prefix computation of `main` (src/src/main.rs lines 222-233):
try RFC 2822, then the explicit format string, else the empty prefix. -/
def date_prefix (pub_date : Option String) : String :=
  match pub_date with
  | none => ""
  | some s =>
    match parseRfc2822 s.data with
    | some ymd => fmtYmdDash ymd
    | none =>
      match parseNaiveFmt s.data with
      | some ymd => fmtYmdDash ymd
      | none => ""

/-- The combined two-branch parse `main` effectively performs. -/
def dateParse (s : List Char) : Option (Nat × Nat × Nat) :=
  match parseRfc2822 s with
  | some ymd => some ymd
  | none => parseNaiveFmt s

/-! ## Feed items, metadata records, and the download-task world model -/

/-- An RSS feed item, projected to the fields `main` and
`save_episode_metadata` read (the `rss::Item` accessors used). -/
structure Item where
  title : Option String
  enclosure_url : Option String
  pub_date : Option String
  description : Option String
  duration : Option String
  author : Option String
  guid : Option String
  link : Option String
  categories : List String
deriving DecidableEq

/-- The `EpisodeMetadata` record of src/src/main.rs lines 39-50. -/
structure EpisodeMetadata where
  title : String
  description : Option String
  pub_date : Option String
  duration : Option String
  author : Option String
  file_url : String
  guid : Option String
  link : Option String
  categories : List String
deriving DecidableEq

/-- The projection performed by `save_episode_metadata` (lines 57-67). -/
def extractMetadata (item : Item) : EpisodeMetadata :=
  { title := item.title.getD "Unknown Title"
    description := item.description
    pub_date := item.pub_date
    duration := item.duration
    author := item.author
    file_url := item.enclosure_url.getD ""
    guid := item.guid
    link := item.link
    categories := item.categories }

/-- What a file on disk holds in the model: a serialized metadata record, or
the media chunks written by the download loop. -/
inductive FileContent where
  | metaJson (m : EpisodeMetadata)
  | mediaBytes (chunks : List String)
deriving DecidableEq

/-- Association-list filesystem lookup. -/
def lookupFile : List (String × FileContent) → String → Option FileContent
  | [], _ => none
  | (q, d) :: rest, p => if q = p then some d else lookupFile rest p

/-- Association-list filesystem update (create or truncate-and-overwrite). -/
def setFile : List (String × FileContent) → String → FileContent → List (String × FileContent)
  | [], p, c => [(p, c)]
  | (q, d) :: rest, p, c => if q = p then (p, c) :: rest else (q, d) :: setFile rest p c

/-- One HTTP response: optional `Content-Length`, the successfully received
chunks in order, and an optional mid-stream error after them. -/
structure NetResponse where
  content_length : Option Nat
  chunks : List String
  midError : Option String
deriving DecidableEq

/-- The world a download task runs against: the filesystem, the network (per
URL: connection error or a response), and whether creating/writing a given
path succeeds. -/
structure World where
  fs : List (String × FileContent)
  net : String → Except String NetResponse
  writeOk : String → Bool

/-- Progress-sink events, mirroring the `indicatif` calls of
`download_episode` and the metadata warning print. -/
inductive Event where
  | skipStart (index total : Nat) (filename : String)
  | skipFinish (index total : Nat) (filename : String)
  | metadataWarning (filename : String)
  | downloading (index total : Nat) (filename : String)
  | progressLength (n : Nat)
  | progressPos (n : Nat)
  | finished (index total : Nat) (filename : String)
deriving DecidableEq

/-- A task's terminal state: the `Ok`-after-skip, `Ok`, and `Err` returns of
`download_episode`. -/
inductive Outcome where
  | skipped
  | completed
  | failed (reason : String)
deriving DecidableEq

/-- The observable result of one `download_episode` call. -/
structure DlResult where
  outcome : Outcome
  fs : List (String × FileContent)
  requests : List String
  events : List Event
deriving DecidableEq

/-- Cumulative byte positions after each chunk (the `set_position` calls),
emitted only when the content length is known and positive. -/
def chunkEvents (total : Nat) : List String → Nat → List Event
  | [], _ => []
  | c :: cs, acc =>
    if total > 0 then Event.progressPos (acc + c.length) :: chunkEvents total cs (acc + c.length)
    else chunkEvents total cs (acc + c.length)

/-- `download_episode` (src/src/main.rs lines 78-158) as a state-passing
function.  Steps, in source order: skip if the destination exists; optionally
write the metadata record (a failure is only a warning); issue the request;
switch to a determinate bar when a positive content length is known; create
the destination file and append the chunks in order; finish, with any network
or create error surfacing as `Outcome.failed`.  The semaphore is modelled
separately as a transition system (the permit is acquired before all of this
and released on every exit path by RAII). -/
def download_episode (url filename output_dir : String) (episode_index total_episodes : Nat)
    (item : Item) (save_metadata : Bool) (w : World) : DlResult :=
  let file_path := output_dir ++ "/" ++ filename
  if (lookupFile w.fs file_path).isSome then
    { outcome := .skipped
      fs := w.fs
      requests := []
      events := [.skipStart episode_index total_episodes filename,
                 .skipFinish episode_index total_episodes filename] }
  else
    let metaPath := output_dir ++ "/" ++ metadata_filename filename
    let fs1 := if save_metadata && w.writeOk metaPath then
                 setFile w.fs metaPath (.metaJson (extractMetadata item))
               else w.fs
    let evs1 := (if save_metadata && !w.writeOk metaPath then
                   [Event.metadataWarning filename]
                 else []) ++ [Event.downloading episode_index total_episodes filename]
    match w.net url with
    | .error e => { outcome := .failed e, fs := fs1, requests := [url], events := evs1 }
    | .ok resp =>
      let total_size := resp.content_length.getD 0
      let evs2 := evs1 ++ (if total_size > 0 then [Event.progressLength total_size] else [])
      if w.writeOk file_path then
        let fs2 := setFile fs1 file_path (.mediaBytes resp.chunks)
        let evs3 := evs2 ++ chunkEvents total_size resp.chunks 0
        match resp.midError with
        | some e => { outcome := .failed e, fs := fs2, requests := [url], events := evs3 }
        | none =>
          { outcome := .completed
            fs := fs2
            requests := [url]
            events := evs3 ++ [.finished episode_index total_episodes filename] }
      else
        { outcome := .failed ("create failed: " ++ file_path)
          fs := fs1, requests := [url], events := evs2 }

/-! ## The orchestrator: scheduling loop and drain loop of `main` -/

/-- A scheduled download task (the arguments `main` passes to
`download_episode` before pushing the future). -/
structure Task where
  url : String
  filename : String
  output_dir : String
  index : Nat
  item : Item
deriving DecidableEq

/-- The task `main` builds for an eligible item at feed index `index`
(src/src/main.rs lines 208-254): filename is date prefix, sanitized title,
and the URL's extension. -/
def mkTask (output_dir : String) (index : Nat) (item : Item) (url : String) : Task :=
  { url := url
    filename := date_prefix item.pub_date ++
      sanitize_filename (item.title.getD "Unknown Episode") ++ "." ++ original_extension url
    output_dir := output_dir
    index := index
    item := item }

/-- The no-enclosure notice `main` prints: `(index+1, max_episodes, title)`. -/
def mkNotice (index maxE : Nat) (item : Item) : Nat × Nat × String :=
  (index + 1, maxE, item.title.getD "Unknown title")

/-- The scheduling loop of `main` (src/src/main.rs lines 203-259): iterate
items with their feed index, breaking once the count of scheduled tasks
reaches `max_episodes`; an item with an enclosure becomes a task and counts,
an item without one yields a notice and does not count. -/
def scheduleAux (output_dir : String) (maxE : Nat) :
    Nat → Nat → List Item → List Task × List (Nat × Nat × String)
  | _, _, [] => ([], [])
  | idx, count, item :: rest =>
    if count = maxE then ([], [])
    else
      match item.enclosure_url with
      | some url =>
        let p := scheduleAux output_dir maxE (idx + 1) (count + 1) rest
        (mkTask output_dir idx item url :: p.1, p.2)
      | none =>
        let p := scheduleAux output_dir maxE (idx + 1) count rest
        (p.1, mkNotice idx maxE item :: p.2)

/-- The tasks and notices produced by `main`'s loop over the whole feed. -/
def scheduleTasks (items : List Item) (output_dir : String) (maxE : Nat) :
    List Task × List (Nat × Nat × String) :=
  scheduleAux output_dir maxE 0 0 items

/-- Run every scheduled task against the same initial world (tasks share no
state except the limiter, modelled separately). -/
def runAll (tasks : List Task) (total : Nat) (save_metadata : Bool) (w : World) :
    List DlResult :=
  tasks.map (fun t =>
    download_episode t.url t.filename t.output_dir t.index total t.item save_metadata w)

/-- The `Result` each pushed future resolves to. -/
def outcomeToResult : Outcome → Except String Unit
  | .failed e => .error e
  | _ => .ok ()

/-- The drain loop of `main` (src/src/main.rs lines 262-266): consume every
result, printing a line for each error and nothing else; never aborts. -/
def drainLoop : List (Except String Unit) → List String
  | [] => []
  | .error e :: rest => ("Download error: " ++ e) :: drainLoop rest
  | .ok _ :: rest => drainLoop rest

/-! ## The concurrency limiter (`tokio::sync::Semaphore`) -/

/-- Where a task stands relative to the limiter: not yet acquired, holding a
permit (the whole body of `download_episode` runs here), or finished (the
permit was released by dropping it, on every exit path). -/
inductive TaskPhase where
  | pending
  | holding
  | done
deriving DecidableEq

/-- Limiter state: free permits plus each task's phase. -/
structure SemState where
  permits : Nat
  phases : List TaskPhase
deriving DecidableEq

/-- All tasks queued, the semaphore fresh with `cap` permits. -/
def initState (cap n : Nat) : SemState :=
  { permits := cap, phases := List.replicate n .pending }

/-- Number of tasks currently past the acquire step. -/
def countHolding (s : SemState) : Nat :=
  s.phases.countP (fun p => p = TaskPhase.holding)

/-- Interleaved execution steps: a pending task acquires a permit when one is
free; a holding task finishes and its permit returns.  A task does business
with the network only in the `holding` phase, matching the source where the
permit is taken on the first line and dropped on scope exit. -/
inductive SemStep : SemState → SemState → Prop
  | acquire (s : SemState) (i : Nat) (h : s.phases.get? i = some .pending)
      (hp : 0 < s.permits) :
      SemStep s { permits := s.permits - 1, phases := s.phases.set i .holding }
  | release (s : SemState) (i : Nat) (h : s.phases.get? i = some .holding) :
      SemStep s { permits := s.permits + 1, phases := s.phases.set i .done }

/-- States reachable in a run of `n` tasks under capacity `cap`. -/
inductive SemReachable (cap n : Nat) : SemState → Prop
  | init : SemReachable cap n (initState cap n)
  | step {s t : SemState} : SemReachable cap n s → SemStep s t → SemReachable cap n t

/-! ## Spec-side definitions (phrased from the specification's words, for
comparison with the source-derived definitions above) -/

/-- Feed items paired with their feed index, starting at `i`. -/
def enumFrom (i : Nat) : List Item → List (Nat × Item)
  | [] => []
  | x :: xs => (i, x) :: enumFrom (i + 1) xs

/-- The eligible (enclosure-bearing) items of the feed, with their indices,
in feed order. -/
def eligibleItems (items : List Item) : List (Nat × Item) :=
  (enumFrom 0 items).filter (fun p => p.2.enclosure_url.isSome)

/-- The prefix of the enumerated feed the loop actually examines before the
cap stops it: the shortest prefix containing `k` eligible items. -/
def scanPrefix (k i : Nat) : List Item → List (Nat × Item)
  | [] => []
  | x :: xs =>
    if k = 0 then []
    else
      match x.enclosure_url with
      | some _ => (i, x) :: scanPrefix (k - 1) (i + 1) xs
      | none => (i, x) :: scanPrefix k (i + 1) xs

/-- The task the specification says is built for the eligible item `p`. -/
def taskOf (output_dir : String) (p : Nat × Item) : Task :=
  mkTask output_dir p.1 p.2 (p.2.enclosure_url.getD "")

/-- Phrased from the specification: "the metadata extension replaces a
recognized media extension (`.mp3`, `.m4a`, `.wav`) with `.json`" — replace
the filename's final recognized media extension. -/
def replaceMediaExtensionSpec (f : List Char) : List Char :=
  if (".mp3".data).isSuffixOf f then f.take (f.length - 4) ++ ".json".data
  else if (".m4a".data).isSuffixOf f then f.take (f.length - 4) ++ ".json".data
  else if (".wav".data).isSuffixOf f then f.take (f.length - 4) ++ ".json".data
  else f

/-! ## Concrete fixtures for witnesses -/

/-- A concrete feed item with an enclosure. -/
def itemA : Item :=
  { title := some "Ep One", enclosure_url := some "https://x.com/ep.mp3"
    pub_date := some "Mon, 02 Jan 2006 15:04:05 +0000", description := none
    duration := none, author := none, guid := none, link := none, categories := [] }

/-- A concrete feed item without an enclosure. -/
def itemB : Item :=
  { title := some "No Media", enclosure_url := none, pub_date := none
    description := none, duration := none, author := none, guid := none
    link := none, categories := [] }

/-- A concrete successful two-chunk response. -/
def respA : NetResponse :=
  { content_length := some 4, chunks := ["ab", "cd"], midError := none }

/-- A world whose filesystem already holds the destination `out/f.mp3`. -/
def wC2 : World :=
  { fs := [("out/f.mp3", .mediaBytes ["x"])]
    net := fun _ => .error "offline"
    writeOk := fun _ => true }

/-- A world with an empty filesystem, a working network, and all writes
succeeding. -/
def wOk : World :=
  { fs := []
    net := fun _ => .ok respA
    writeOk := fun _ => true }

/-- A world where only the metadata file `out/f.json` cannot be written. -/
def wC3 : World :=
  { fs := []
    net := fun _ => .ok respA
    writeOk := fun p => if p = "out/f.json" then false else true }

/-- A world with an empty filesystem whose network always fails. -/
def wErr : World :=
  { fs := []
    net := fun _ => .error "timeout"
    writeOk := fun _ => true }

/-! ## Lemmas about `replaceAll` -/

theorem replaceAllCore_of_not_hasSub (pat rep : List Char) :
    ∀ (fuel : Nat) (s : List Char), hasSub pat s = false →
      replaceAllCore fuel pat rep s = s := by
  intro fuel
  induction fuel with
  | zero => intro s _; rfl
  | succ f ih =>
    intro s h
    cases s with
    | nil => rfl
    | cons c cs =>
      rw [hasSub, Bool.or_eq_false_iff] at h
      simp only [replaceAllCore, h.1, and_false, if_false, Bool.false_eq_true]
      rw [ih cs h.2]

theorem replaceAll_of_not_hasSub (pat rep s : List Char) (h : hasSub pat s = false) :
    replaceAll pat rep s = s :=
  replaceAllCore_of_not_hasSub pat rep s.length s h

theorem replaceAllCore_append_nodot (pat rep tail : List Char) (hp : pat.head? = some '.') :
    ∀ (stem : List Char) (fuel : Nat), (∀ c ∈ stem, c ≠ '.') →
      stem.length + tail.length ≤ fuel →
      replaceAllCore fuel pat rep (stem ++ tail) =
        stem ++ replaceAllCore (fuel - stem.length) pat rep tail := by
  intro stem
  induction stem with
  | nil => intro fuel _ _; simp
  | cons c cs ih =>
    intro fuel h hf
    obtain ⟨pt, rfl⟩ : ∃ pt, pat = '.' :: pt := by
      cases pat with
      | nil => simp at hp
      | cons a t =>
        have ha : a = '.' := by simpa using hp
        exact ⟨t, by rw [ha]⟩
    cases fuel with
    | zero => simp at hf
    | succ f =>
      have hc : c ≠ '.' := h c (by simp)
      have hpre : (('.' :: pt).isPrefixOf (c :: (cs ++ tail))) = false := by
        simp [List.isPrefixOf]
        intro hdot
        exact absurd hdot.symm hc
      simp only [List.cons_append, replaceAllCore, List.append_eq, hpre,
        Bool.false_eq_true, and_false, if_false]
      have hlen : cs.length + tail.length ≤ f := by
        simp only [List.length_cons] at hf; omega
      rw [ih f (fun x hx => h x (by simp [hx])) hlen]
      simp [Nat.succ_sub_succ]

theorem replaceAll_append_nodot (pat rep stem tail : List Char) (hp : pat.head? = some '.')
    (h : ∀ c ∈ stem, c ≠ '.') :
    replaceAll pat rep (stem ++ tail) = stem ++ replaceAll pat rep tail := by
  unfold replaceAll
  rw [List.length_append,
    replaceAllCore_append_nodot pat rep tail hp stem (stem.length + tail.length) h le_rfl]
  simp

/-! ## Claim C9 -/

/-- C9 counterexample: the code replaces the substrings `".mp3"`, `".m4a"`,
`".wav"` everywhere in the filename, not just a final recognized media
extension, so on `"x.mp3.mp3"` it produces `"x.json.json"` while replacing
the media extension would produce `"x.mp3.json"`. -/
theorem spec_C9_counterexample :
    metadata_filename "x.mp3.mp3" = "x.json.json" ∧
    String.mk (replaceMediaExtensionSpec "x.mp3.mp3".data) = "x.mp3.json" ∧
    metadata_filename "x.mp3.mp3" ≠ String.mk (replaceMediaExtensionSpec "x.mp3.mp3".data) := by
  decide

/-- C9 (amended): the metadata path replaces every occurrence of `".mp3"`,
`".m4a"`, `".wav"` in the destination filename with `".json"`; when the
filename's only dot is the one introducing a recognized media extension, this
replaces that extension with `.json`.  In particular destination `"ep1.mp3"`
yields metadata path `"ep1.json"` and `"ep1.wav"` yields `"ep1.json"`. -/
theorem spec_C9_thm (stem : List Char) (h : ∀ c ∈ stem, c ≠ '.') :
    metadata_filename ⟨stem ++ ".mp3".data⟩ = ⟨stem ++ ".json".data⟩ ∧
    metadata_filename ⟨stem ++ ".m4a".data⟩ = ⟨stem ++ ".json".data⟩ ∧
    metadata_filename ⟨stem ++ ".wav".data⟩ = ⟨stem ++ ".json".data⟩ ∧
    metadata_filename "ep1.mp3" = "ep1.json" ∧
    metadata_filename "ep1.wav" = "ep1.json" := by
  have hmp3 : (".mp3".data).head? = some '.' := by decide
  have hm4a : (".m4a".data).head? = some '.' := by decide
  have hwav : (".wav".data).head? = some '.' := by decide
  refine ⟨?_, ?_, ?_, by decide, by decide⟩
  · show (⟨replaceAll ".wav".data ".json".data (replaceAll ".m4a".data ".json".data
      (replaceAll ".mp3".data ".json".data (stem ++ ".mp3".data)))⟩ : String) = _
    rw [replaceAll_append_nodot _ _ _ _ hmp3 h,
      show replaceAll ".mp3".data ".json".data ".mp3".data = ".json".data from by decide,
      replaceAll_append_nodot _ _ _ _ hm4a h,
      show replaceAll ".m4a".data ".json".data ".json".data = ".json".data from by decide,
      replaceAll_append_nodot _ _ _ _ hwav h,
      show replaceAll ".wav".data ".json".data ".json".data = ".json".data from by decide]
  · show (⟨replaceAll ".wav".data ".json".data (replaceAll ".m4a".data ".json".data
      (replaceAll ".mp3".data ".json".data (stem ++ ".m4a".data)))⟩ : String) = _
    rw [replaceAll_append_nodot _ _ _ _ hmp3 h,
      show replaceAll ".mp3".data ".json".data ".m4a".data = ".m4a".data from by decide,
      replaceAll_append_nodot _ _ _ _ hm4a h,
      show replaceAll ".m4a".data ".json".data ".m4a".data = ".json".data from by decide,
      replaceAll_append_nodot _ _ _ _ hwav h,
      show replaceAll ".wav".data ".json".data ".json".data = ".json".data from by decide]
  · show (⟨replaceAll ".wav".data ".json".data (replaceAll ".m4a".data ".json".data
      (replaceAll ".mp3".data ".json".data (stem ++ ".wav".data)))⟩ : String) = _
    rw [replaceAll_append_nodot _ _ _ _ hmp3 h,
      show replaceAll ".mp3".data ".json".data ".wav".data = ".wav".data from by decide,
      replaceAll_append_nodot _ _ _ _ hm4a h,
      show replaceAll ".m4a".data ".json".data ".wav".data = ".wav".data from by decide,
      replaceAll_append_nodot _ _ _ _ hwav h,
      show replaceAll ".wav".data ".json".data ".wav".data = ".json".data from by decide]

/-- Witness for the amended C9 at the concrete stem `"ep1"`. -/
theorem spec_C9_thm_witness :
    metadata_filename "ep1.mp3" = "ep1.json" ∧ metadata_filename "ep1.wav" = "ep1.json" := by
  have h := spec_C9_thm "ep1".data (by decide)
  exact ⟨h.2.2.2.1, h.2.2.2.2⟩

/-! ## Claims C10 and C2 -/

theorem lookupFile_setFile_self (fs : List (String × FileContent)) (p : String)
    (c : FileContent) : lookupFile (setFile fs p c) p = some c := by
  induction fs with
  | nil => simp [setFile, lookupFile]
  | cons hd t ih =>
    obtain ⟨q, d⟩ := hd
    by_cases hq : q = p <;> simp [setFile, lookupFile, hq, ih]

/-- C10: when the destination filename contains none of the substrings
`".mp3"`, `".m4a"`, `".wav"`, the computed metadata path is the destination
path itself; running the task with metadata persistence enabled on a fresh
destination then writes the metadata record to the media path and overwrites
it with the media bytes when the download creates the destination file. -/
theorem spec_C10 (filename output_dir url : String) (idx total : Nat) (item : Item)
    (w : World) (resp : NetResponse)
    (h1 : hasSub ".mp3".data filename.data = false)
    (h2 : hasSub ".m4a".data filename.data = false)
    (h3 : hasSub ".wav".data filename.data = false)
    (hdest : lookupFile w.fs (output_dir ++ "/" ++ filename) = none)
    (hw1 : w.writeOk (output_dir ++ "/" ++ metadata_filename filename) = true)
    (hw2 : w.writeOk (output_dir ++ "/" ++ filename) = true)
    (hnet : w.net url = .ok resp)
    (hmid : resp.midError = none) :
    metadata_filename filename = filename ∧
    (download_episode url filename output_dir idx total item true w).outcome =
      Outcome.completed ∧
    lookupFile (download_episode url filename output_dir idx total item true w).fs
      (output_dir ++ "/" ++ filename) = some (.mediaBytes resp.chunks) := by
  have hmf : metadata_filename filename = filename := by
    show (⟨replaceAll ".wav".data ".json".data (replaceAll ".m4a".data ".json".data
      (replaceAll ".mp3".data ".json".data filename.data))⟩ : String) = filename
    rw [replaceAll_of_not_hasSub _ _ _ h1, replaceAll_of_not_hasSub _ _ _ h2,
      replaceAll_of_not_hasSub _ _ _ h3]
  refine ⟨hmf, ?_, ?_⟩
  · simp [download_episode, hdest, hmf, hw1, hw2, hnet, hmid]
  · simp [download_episode, hdest, hmf, hw1, hw2, hnet, hmid, lookupFile_setFile_self]

/-- Witness for C10: filename `"ep"` (no media-extension substring) in a
working world. -/
theorem spec_C10_witness :
    metadata_filename "ep" = "ep" ∧
    (download_episode "https://x.com/ep.mp3" "ep" "out" 0 1 itemA true wOk).outcome =
      Outcome.completed ∧
    lookupFile (download_episode "https://x.com/ep.mp3" "ep" "out" 0 1 itemA true wOk).fs
      ("out" ++ "/" ++ "ep") = some (.mediaBytes respA.chunks) :=
  spec_C10 "ep" "out" "https://x.com/ep.mp3" 0 1 itemA wOk respA
    (by decide) (by decide) (by decide) (by decide) (by decide) (by decide) rfl rfl

/-- C2: if a file already exists at the destination path, the task returns
`Skipped` after the skip progress events, performs no network request, and
leaves the filesystem (in particular the destination file) untouched. -/
theorem spec_C2 (url filename output_dir : String) (idx total : Nat) (item : Item)
    (sm : Bool) (w : World)
    (h : (lookupFile w.fs (output_dir ++ "/" ++ filename)).isSome = true) :
    download_episode url filename output_dir idx total item sm w =
      { outcome := .skipped
        fs := w.fs
        requests := []
        events := [.skipStart idx total filename, .skipFinish idx total filename] } := by
  simp [download_episode, h]

/-- Witness for C2: destination `out/f.mp3` already exists in `wC2`. -/
theorem spec_C2_witness :
    download_episode "https://u" "f.mp3" "out" 0 1 itemA true wC2 =
      { outcome := .skipped
        fs := wC2.fs
        requests := []
        events := [.skipStart 0 1 "f.mp3", .skipFinish 0 1 "f.mp3"] } :=
  spec_C2 "https://u" "f.mp3" "out" 0 1 itemA true wC2 (by decide)

/-! ## Claim C4 -/

theorem countP_set_get? (l : List TaskPhase) (p : TaskPhase → Bool) :
    ∀ (i : Nat) (a b : TaskPhase), l.get? i = some a →
      (l.set i b).countP p + (if p a then 1 else 0) =
        l.countP p + (if p b then 1 else 0) := by
  induction l with
  | nil => intro i a b h; simp at h
  | cons c t ih =>
    intro i a b h
    cases i with
    | zero =>
      simp only [List.get?] at h
      injection h with h
      subst h
      simp only [List.set, List.countP_cons]
      omega
    | succ i' =>
      simp only [List.get?] at h
      simp only [List.set, List.countP_cons]
      have := ih i' a b h
      omega

theorem sem_invariant {cap n : Nat} {s : SemState} (h : SemReachable cap n s) :
    countHolding s + s.permits = cap := by
  induction h with
  | init =>
    have h0 : countHolding (initState cap n) = 0 := by
      simp only [countHolding, initState]
      rw [List.countP_eq_zero]
      intro a ha
      rw [List.eq_of_mem_replicate ha]
      decide
    rw [h0]
    simp [initState]
  | step hr hstep ih =>
    rename_i s' t'
    cases hstep with
    | acquire i hi hp =>
      have hc : (s'.phases.set i .holding).countP (fun p => decide (p = TaskPhase.holding)) =
          s'.phases.countP (fun p => decide (p = TaskPhase.holding)) + 1 := by
        have := countP_set_get? s'.phases (fun p => decide (p = TaskPhase.holding))
          i .pending .holding hi
        simpa using this
      simp only [countHolding] at ih ⊢
      simp only [hc]
      omega
    | release i hi =>
      have hc : (s'.phases.set i .done).countP (fun p => decide (p = TaskPhase.holding)) + 1 =
          s'.phases.countP (fun p => decide (p = TaskPhase.holding)) := by
        have := countP_set_get? s'.phases (fun p => decide (p = TaskPhase.holding))
          i .holding .done hi
        simpa using this
      simp only [countHolding] at ih ⊢
      omega

/-- C4: in every reachable state of a run of `n` tasks under a limiter of
capacity `cap`, at most `cap` tasks are past the acquire step; indeed the
holding count and the free permits always sum to `cap`, reflecting that each
task takes one unit before its network work and the unit returns on every
exit path. -/
theorem spec_C4 (cap n : Nat) (s : SemState) (h : SemReachable cap n s) :
    countHolding s ≤ cap ∧ countHolding s + s.permits = cap := by
  have := sem_invariant h
  omega

/-- Witness for C4: with capacity 2 and three tasks, the state after two
acquires is reachable and holds exactly two tasks. -/
theorem spec_C4_witness :
    countHolding { permits := 0, phases := [.holding, .holding, .pending] } ≤ 2 := by
  have h1 : SemReachable 2 3 (initState 2 3) := SemReachable.init
  have h2 := SemReachable.step h1 (SemStep.acquire (initState 2 3) 0 (by decide) (by decide))
  have h3 := SemReachable.step h2 (SemStep.acquire _ 1 (by decide) (by decide))
  exact (spec_C4 2 3 _ h3).1

/-! ## Claim C1 -/

theorem scheduleAux_eq (dir : String) (maxE : Nat) :
    ∀ (items : List Item) (idx count : Nat), count ≤ maxE →
      scheduleAux dir maxE idx count items =
        (((scanPrefix (maxE - count) idx items).filter
            (fun p => p.2.enclosure_url.isSome)).map (taskOf dir),
         ((scanPrefix (maxE - count) idx items).filter
            (fun p => p.2.enclosure_url.isNone)).map (fun p => mkNotice p.1 maxE p.2)) := by
  intro items
  induction items with
  | nil => intro idx count _; simp [scheduleAux, scanPrefix]
  | cons x xs ih =>
    intro idx count hle
    by_cases hcm : count = maxE
    · have hz : maxE - count = 0 := by omega
      simp [scheduleAux, scanPrefix, hcm, hz]
    · have hlt : count < maxE := lt_of_le_of_ne hle hcm
      have hnz : maxE - count ≠ 0 := by omega
      cases hx : x.enclosure_url with
      | some url =>
        have hrec := ih (idx + 1) (count + 1) (by omega)
        have hsub : maxE - (count + 1) = maxE - count - 1 := by omega
        simp only [scheduleAux, hcm, if_false, hx, hrec, hsub]
        simp [scanPrefix, hnz, hx, taskOf, hcm]
      | none =>
        have hrec := ih (idx + 1) count hle
        simp only [scheduleAux, hcm, if_false, hx, hrec]
        simp [scanPrefix, hnz, hx, hcm]

theorem filter_scanPrefix_eq_take :
    ∀ (items : List Item) (k i : Nat),
      (scanPrefix k i items).filter (fun p => p.2.enclosure_url.isSome) =
        ((enumFrom i items).filter (fun p => p.2.enclosure_url.isSome)).take k := by
  intro items
  induction items with
  | nil => intro k i; simp [scanPrefix, enumFrom]
  | cons x xs ih =>
    intro k i
    cases k with
    | zero => simp [scanPrefix]
    | succ j =>
      cases hx : x.enclosure_url with
      | some url => simp [scanPrefix, enumFrom, hx, ih]
      | none => simp [scanPrefix, enumFrom, hx, ih]

/-- C1: `main`'s loop schedules a task for exactly the first
`min k (number of enclosure-bearing items)` items that have an enclosure, in
feed order (with the filename composed per the source), and each scanned item
without an enclosure produces a logged notice instead of consuming the cap. -/
theorem spec_C1 (items : List Item) (dir : String) (k : Nat) :
    (scheduleTasks items dir k).1 = ((eligibleItems items).take k).map (taskOf dir) ∧
    (scheduleTasks items dir k).1.length = min k (eligibleItems items).length ∧
    (scheduleTasks items dir k).2 =
      ((scanPrefix k 0 items).filter (fun p => p.2.enclosure_url.isNone)).map
        (fun p => mkNotice p.1 k p.2) := by
  have h := scheduleAux_eq dir k items 0 0 (Nat.zero_le k)
  have htasks : (scheduleTasks items dir k).1 =
      ((eligibleItems items).take k).map (taskOf dir) := by
    rw [scheduleTasks, h]
    simp [eligibleItems, filter_scanPrefix_eq_take]
  refine ⟨htasks, ?_, ?_⟩
  · rw [htasks]
    simp [List.length_take]
  · rw [scheduleTasks, h]
    simp

/-! ## Claim C3 -/

/-- C3 counterexample: a filesystem error inside a task need not surface as
that task's `Failed` outcome — when writing the metadata file fails, the code
only prints a warning and the task still completes (src/src/main.rs lines
111-115).  In `wC3` the metadata path `out/f.json` is unwritable, yet the
task's outcome is `Completed`, with the warning event recording the error. -/
theorem spec_C3_counterexample :
    wC3.writeOk ("out" ++ "/" ++ metadata_filename "f.mp3") = false ∧
    (download_episode "https://u" "f.mp3" "out" 0 1 itemA true wC3).outcome =
      Outcome.completed ∧
    Event.metadataWarning "f.mp3" ∈
      (download_episode "https://u" "f.mp3" "out" 0 1 itemA true wC3).events := by
  decide

/-- C3 (amended): errors surface as the failing task's own `Failed` outcome
and are isolated per task.  (1) Changing the network's behaviour at another
task's URL (for example making it fail) leaves a task's entire result
unchanged, so one task's `Failed` outcome never prevents a sibling from
reaching `Completed`; (2) the drain loop processes the results elementwise
and never aborts early; (3) it logs exactly the `Failed` outcomes, with
their reasons; (4) a metadata-write failure is logged as a warning and does
not change the task's outcome: the task still completes when the fetch and
the media write succeed; (5) a network error on the request surfaces as
`Failed` with that reason; (6) a failure to create the media file surfaces
as `Failed`; (7) a mid-stream network error after some chunks surfaces as
`Failed` with that reason. -/
theorem spec_C3_thm :
    (∀ (t : Task) (total : Nat) (sm : Bool) (w : World) (u : String)
      (res : Except String NetResponse), t.url ≠ u →
      download_episode t.url t.filename t.output_dir t.index total t.item sm
        { fs := w.fs, net := fun v => if v = u then res else w.net v, writeOk := w.writeOk } =
      download_episode t.url t.filename t.output_dir t.index total t.item sm w) ∧
    (∀ (l₁ l₂ : List (Except String Unit)),
      drainLoop (l₁ ++ l₂) = drainLoop l₁ ++ drainLoop l₂) ∧
    (∀ (outs : List Outcome),
      drainLoop (outs.map outcomeToResult) = outs.filterMap (fun o =>
        match o with
        | .failed e => some ("Download error: " ++ e)
        | _ => none)) ∧
    (∀ (url fn dir : String) (idx tot : Nat) (item : Item) (w : World) (resp : NetResponse),
      lookupFile w.fs (dir ++ "/" ++ fn) = none →
      w.writeOk (dir ++ "/" ++ fn) = true →
      w.net url = .ok resp → resp.midError = none →
      (download_episode url fn dir idx tot item true w).outcome = Outcome.completed) ∧
    (∀ (url fn dir : String) (idx tot : Nat) (item : Item) (sm : Bool) (w : World)
      (e : String),
      lookupFile w.fs (dir ++ "/" ++ fn) = none →
      w.net url = .error e →
      (download_episode url fn dir idx tot item sm w).outcome = Outcome.failed e) ∧
    (∀ (url fn dir : String) (idx tot : Nat) (item : Item) (sm : Bool) (w : World)
      (resp : NetResponse),
      lookupFile w.fs (dir ++ "/" ++ fn) = none →
      w.net url = .ok resp →
      w.writeOk (dir ++ "/" ++ fn) = false →
      (download_episode url fn dir idx tot item sm w).outcome =
        Outcome.failed ("create failed: " ++ (dir ++ "/" ++ fn))) ∧
    (∀ (url fn dir : String) (idx tot : Nat) (item : Item) (sm : Bool) (w : World)
      (resp : NetResponse) (e : String),
      lookupFile w.fs (dir ++ "/" ++ fn) = none →
      w.net url = .ok resp →
      w.writeOk (dir ++ "/" ++ fn) = true →
      resp.midError = some e →
      (download_episode url fn dir idx tot item sm w).outcome = Outcome.failed e) := by
  refine ⟨?_, ?_, ?_, ?_, ?_, ?_, ?_⟩
  · intro t total sm w u res h
    simp only [download_episode]
    rw [if_neg h]
  · intro l₁ l₂
    induction l₁ with
    | nil => simp [drainLoop]
    | cons a t ih => cases a <;> simp [drainLoop, ih]
  · intro outs
    induction outs with
    | nil => simp [drainLoop]
    | cons o t ih => cases o <;> simp [drainLoop, outcomeToResult, ih]
  · intro url fn dir idx tot item w resp hdest hw hnet hmid
    simp [download_episode, hdest, hw, hnet, hmid]
  · intro url fn dir idx tot item sm w e hdest hnet
    simp [download_episode, hdest, hnet]
  · intro url fn dir idx tot item sm w resp hdest hnet hw
    simp [download_episode, hdest, hnet, hw]
  · intro url fn dir idx tot item sm w resp e hdest hnet hw hmid
    simp [download_episode, hdest, hnet, hw, hmid]

/-- Witness for the amended C3: failure injected at a different URL leaves a
concrete task's result unchanged, a concrete task completes, and a concrete
task whose request fails ends `Failed` with the network's reason. -/
theorem spec_C3_thm_witness :
    (download_episode "https://a" "f" "out" 0 1 itemA true
      { fs := wOk.fs, net := fun v => if v = "https://b" then .error "boom" else wOk.net v
        writeOk := wOk.writeOk } =
      download_episode "https://a" "f" "out" 0 1 itemA true wOk) ∧
    (download_episode "https://a" "f" "out" 0 1 itemA true wOk).outcome =
      Outcome.completed ∧
    (download_episode "https://a" "f" "out" 0 1 itemA true wErr).outcome =
      Outcome.failed "timeout" :=
  ⟨spec_C3_thm.1 ⟨"https://a", "f", "out", 0, itemA⟩ 1 true wOk "https://b"
      (.error "boom") (by decide),
   spec_C3_thm.2.2.2.1 "https://a" "f" "out" 0 1 itemA wOk respA
      (by decide) (by decide) rfl rfl,
   spec_C3_thm.2.2.2.2.1 "https://a" "f" "out" 0 1 itemA true wErr "timeout"
      (by decide) rfl⟩

/-! ## Claim C5 -/

/-- C5: the date prefix is total — for every optional publication-date
string it equals the `%Y-%m-%d - ` rendering of the date when the string
parses under one of the two RFC-2822-style formats, and is the empty string
when the string is absent or unparsable.  In particular
`"Mon, 02 Jan 2006 15:04:05 +0000"` yields `"2006-01-02 - "`,
`"02 Jan 2006 15:04:05 GMT"` (weekday omitted, named zone) also parses,
and `"not-a-date"` yields the empty prefix. -/
theorem spec_C5 :
    (∀ s : String, date_prefix (some s) =
      match dateParse s.data with
      | some ymd => fmtYmdDash ymd
      | none => "") ∧
    date_prefix none = "" ∧
    date_prefix (some "Mon, 02 Jan 2006 15:04:05 +0000") = "2006-01-02 - " ∧
    date_prefix (some "02 Jan 2006 15:04:05 GMT") = "2006-01-02 - " ∧
    date_prefix (some "not-a-date") = "" := by
  refine ⟨?_, rfl, by decide, by decide, by decide⟩
  intro s
  simp only [ date_prefix, dateParse]
  cases parseRfc2822 s.data with
  | some ymd => rfl
  | none => cases parseNaiveFmt s.data <;> rfl

/-! ## Claim C6 -/

theorem splitSlashAux_append (b : List Char) :
    ∀ (a acc : List Char),
      splitSlashAux (a ++ '/' :: b) acc = splitSlashAux a acc ++ splitSlashAux b [] := by
  intro a
  induction a with
  | nil => intro acc; simp [splitSlashAux]
  | cons c cs ih =>
    intro acc
    by_cases hc : c = '/' <;> simp [splitSlashAux, hc, ih]

theorem splitSlashAux_no_slash :
    ∀ (l acc : List Char), (∀ c ∈ l, c ≠ '/') →
      splitSlashAux l acc = [acc.reverse ++ l] := by
  intro l
  induction l with
  | nil => intro acc _; simp [splitSlashAux]
  | cons c cs ih =>
    intro acc h
    have hc : c ≠ '/' := h c (by simp)
    simp [splitSlashAux, hc, ih (c :: acc) (fun x hx => h x (by simp [hx]))]

theorem getLast?_snoc {α : Type} (l : List α) (a : α) : (l ++ [a]).getLast? = some a := by
  induction l with
  | nil => rfl
  | cons c cs ih =>
    cases h : cs ++ [a] with
    | nil => simp at h
    | cons b t => rw [List.cons_append, h, List.getLast?_cons_cons, ← h, ih]

theorem takeWhile_append_cons (p : Char → Bool) (y : Char) (ys : List Char) :
    ∀ (xs : List Char), (∀ x ∈ xs, p x = true) → p y = false →
      (xs ++ y :: ys).takeWhile p = xs := by
  intro xs
  induction xs with
  | nil => intro _ hy; simp [List.takeWhile, hy]
  | cons c cs ih =>
    intro h hy
    have hc : p c = true := h c (by simp)
    simp [List.takeWhile, hc, ih (fun x hx => h x (by simp [hx])) hy]

/-- C6: the composed extension is total, and is the file extension of the
URL's last path segment with fallback `"mp3"`: for a URL of the form
`base/stem.ext` (ext and stem free of `'/'` and `'.'`, stem nonempty) it is
exactly `ext`; in general it is the Rust `Path::extension` of the URL when
that is present and `"mp3"` otherwise, so `"https://x.com/ep.mp3"` resolves
to `"mp3"` and the empty URL to `"mp3"`. -/
theorem spec_C6 :
    (∀ (base stem ext : String), stem.data ≠ [] →
      (∀ c ∈ stem.data, c ≠ '/' ∧ c ≠ '.') →
      (∀ c ∈ ext.data, c ≠ '/' ∧ c ≠ '.') →
      original_extension (base ++ "/" ++ stem ++ "." ++ ext) = ext) ∧
    (∀ url : String, original_extension url =
      match (pathFileName url).bind extOfName with
      | some e => ⟨e⟩
      | none => "mp3") ∧
    original_extension "https://x.com/ep.mp3" = "mp3" ∧
    original_extension "" = "mp3" := by
  refine ⟨?_, ?_, by decide, by decide⟩
  · intro base stem ext hne hstem hext
    obtain ⟨s0, srest, hsd⟩ : ∃ s0 srest, stem.data = s0 :: srest := by
      cases hsd : stem.data with
      | nil => exact absurd hsd hne
      | cons a t => exact ⟨a, t, rfl⟩
    have hdata : (base ++ "/" ++ stem ++ "." ++ ext).data =
        base.data ++ '/' :: (stem.data ++ '.' :: ext.data) := by
      simp [String.data_append]
    have hB : ∀ c ∈ stem.data ++ '.' :: ext.data, c ≠ '/' := by
      intro c hc
      rcases List.mem_append.mp hc with h1 | h1
      · exact (hstem c h1).1
      · rcases List.mem_cons.mp h1 with h2 | h2
        · rw [h2]; decide
        · exact (hext c h2).1
    have hsplit : splitSlashAux (base ++ "/" ++ stem ++ "." ++ ext).data [] =
        splitSlashAux base.data [] ++ [stem.data ++ '.' :: ext.data] := by
      rw [hdata, splitSlashAux_append, splitSlashAux_no_slash _ [] hB]
      rfl
    have hBne : stem.data ++ '.' :: ext.data ≠ ['.'] := by
      rw [hsd]
      intro habs
      have hlen := congrArg List.length habs
      simp at hlen
    have hBdd : stem.data ++ '.' :: ext.data ≠ ['.', '.'] := by
      rw [hsd]
      intro habs
      have hh : s0 = '.' := by
        have := congrArg (fun l => l.head?) habs
        simpa using this
      exact (hstem s0 (by rw [hsd]; simp)).2 hh
    have hlast : ((splitSlashAux base.data [] ++ [stem.data ++ '.' :: ext.data]).filter
        (fun s => !s.isEmpty && s ≠ ['.'])).getLast? =
        some (stem.data ++ '.' :: ext.data) := by
      rw [List.filter_append]
      have hone : List.filter (fun s => !s.isEmpty && s ≠ ['.'])
          [stem.data ++ '.' :: ext.data] = [stem.data ++ '.' :: ext.data] := by
        simp [List.filter, hBne, hsd]
      rw [hone, getLast?_snoc]
    have hfn : pathFileName (base ++ "/" ++ stem ++ "." ++ ext) =
        some (stem.data ++ '.' :: ext.data) := by
      simp only [pathFileName]
      rw [hsplit, hlast]
      simp [hBdd]
    have hrev : (stem.data ++ '.' :: ext.data).reverse =
        ext.data.reverse ++ '.' :: stem.data.reverse := by
      simp
    have htw : ((stem.data ++ '.' :: ext.data).reverse.takeWhile (fun c => c ≠ '.')) =
        ext.data.reverse := by
      rw [hrev]
      exact takeWhile_append_cons _ '.' _ ext.data.reverse
        (fun x hx => by simp [(hext x (List.mem_reverse.mp hx)).2]) (by decide)
    have hL1 : ¬ ext.data.reverse.length = (stem.data ++ '.' :: ext.data).length := by
      simp [hsd]
      omega
    have hL2 : ¬ ext.data.reverse.length + 1 = (stem.data ++ '.' :: ext.data).length := by
      simp [hsd]
      omega
    have hext2 : extOfName (stem.data ++ '.' :: ext.data) = some ext.data := by
      simp only [extOfName, htw, if_neg hL1, if_neg hL2, List.reverse_reverse]
    show original_extension (base ++ "/" ++ stem ++ "." ++ ext) = ext
    simp only [original_extension, hfn, Option.bind, hext2]
  · intro url
    simp only [original_extension]

/-- Witness for C6 on the URL `"https://x.com/ep.mp3"` split into its parts. -/
theorem spec_C6_witness :
    original_extension ("https://x.com" ++ "/" ++ "ep" ++ "." ++ "mp3") = "mp3" :=
  spec_C6.1 "https://x.com" "ep" "mp3" (by decide) (by decide) (by decide)

/-! ## Lemmas about the sanitizer, for claims C7 and C8 -/

theorem splitWsAux_sound :
    ∀ (l acc : List Char), (∀ c ∈ acc, rustIsWhitespace c = false) →
      ∀ w ∈ splitWsAux l acc, w ≠ [] ∧
        ∀ c ∈ w, rustIsWhitespace c = false ∧ (c ∈ l ∨ c ∈ acc) := by
  intro l
  induction l with
  | nil =>
    intro acc hacc w hw
    cases acc with
    | nil => simp [splitWsAux] at hw
    | cons a t =>
      simp [splitWsAux] at hw
      subst hw
      refine ⟨by simp, ?_⟩
      intro c hc
      have hc' : c ∈ a :: t := by
        have : c ∈ (a :: t).reverse := by simpa using hc
        exact List.mem_reverse.mp this
      exact ⟨hacc c hc', Or.inr hc'⟩
  | cons x xs ih =>
    intro acc hacc w hw
    by_cases hws : rustIsWhitespace x = true
    · cases acc with
      | nil =>
        rw [splitWsAux, if_pos hws] at hw
        simp only [List.isEmpty_nil, if_true] at hw
        have := ih [] (by intro c hc; simp at hc) w hw
        refine ⟨this.1, ?_⟩
        intro c hc
        rcases (this.2 c hc).2 with h1 | h1
        · exact ⟨(this.2 c hc).1, Or.inl (by simp [h1])⟩
        · simp at h1
      | cons a t =>
        rw [splitWsAux, if_pos hws] at hw
        simp only [List.isEmpty_cons, if_false, Bool.false_eq_true] at hw
        rcases List.mem_cons.mp hw with h1 | h1
        · subst h1
          refine ⟨by simp, ?_⟩
          intro c hc
          have hc' : c ∈ a :: t := List.mem_reverse.mp hc
          exact ⟨hacc c hc', Or.inr hc'⟩
        · have := ih [] (by intro c hc; simp at hc) w h1
          refine ⟨this.1, ?_⟩
          intro c hc
          rcases (this.2 c hc).2 with h2 | h2
          · exact ⟨(this.2 c hc).1, Or.inl (by simp [h2])⟩
          · simp at h2
    · have hws' : rustIsWhitespace x = false := by
        cases h : rustIsWhitespace x
        · rfl
        · exact absurd h hws
      rw [splitWsAux, if_neg (by simp [hws'])] at hw
      have haccx : ∀ c ∈ x :: acc, rustIsWhitespace c = false := by
        intro c hc
        rcases List.mem_cons.mp hc with h1 | h1
        · rw [h1]; exact hws'
        · exact hacc c h1
      have := ih (x :: acc) haccx w hw
      refine ⟨this.1, ?_⟩
      intro c hc
      rcases (this.2 c hc).2 with h1 | h1
      · exact ⟨(this.2 c hc).1, Or.inl (by simp [h1])⟩
      · rcases List.mem_cons.mp h1 with h2 | h2
        · exact ⟨(this.2 c hc).1, Or.inl (by simp [h2])⟩
        · exact ⟨(this.2 c hc).1, Or.inr h2⟩

theorem joinWords_ne_nil (w : List Char) (ws : List (List Char)) (h : w ≠ []) :
    joinWords (w :: ws) ≠ [] := by
  cases ws with
  | nil => simpa [joinWords] using h
  | cons w' rest => simp [joinWords]

theorem joinWords_head_not_ws :
    ∀ (ws : List (List Char)),
      (∀ w ∈ ws, w ≠ [] ∧ ∀ c ∈ w, rustIsWhitespace c = false) →
      ∀ c, (joinWords ws).head? = some c → rustIsWhitespace c = false := by
  intro ws
  induction ws with
  | nil => intro _ c hc; simp [joinWords] at hc
  | cons w rest ih =>
    intro h c hc
    have hw := h w (by simp)
    cases rest with
    | nil =>
      simp only [joinWords] at hc
      exact hw.2 c (by
        cases w with
        | nil => simp at hc
        | cons a t => simp at hc; simp [hc])
    | cons w' rest' =>
      simp only [joinWords] at hc
      cases w with
      | nil => exact absurd rfl hw.1
      | cons a t =>
        simp at hc
        exact hw.2 c (by simp [hc])

theorem getLast?_mem' {α : Type} : ∀ (l : List α) (a : α), l.getLast? = some a → a ∈ l := by
  intro l
  induction l with
  | nil => intro a h; simp at h
  | cons c cs ih =>
    intro a h
    cases cs with
    | nil => simp at h; simp [h]
    | cons b t =>
      rw [List.getLast?_cons_cons] at h
      exact List.mem_cons_of_mem c (ih a h)

theorem joinWords_last_not_ws :
    ∀ (ws : List (List Char)),
      (∀ w ∈ ws, w ≠ [] ∧ ∀ c ∈ w, rustIsWhitespace c = false) →
      ∀ c, (joinWords ws).getLast? = some c → rustIsWhitespace c = false := by
  intro ws
  induction ws with
  | nil => intro _ c hc; simp [joinWords] at hc
  | cons w rest ih =>
    intro h c hc
    have hw := h w (by simp)
    cases rest with
    | nil =>
      simp only [joinWords] at hc
      exact hw.2 c (getLast?_mem' w c hc)
    | cons w' rest' =>
      simp only [joinWords] at hc
      have hJne : joinWords (w' :: rest') ≠ [] :=
        joinWords_ne_nil w' rest' (h w' (by simp)).1
      rw [List.getLast?_append_cons] at hc
      obtain ⟨b, t, hbt⟩ : ∃ b t, joinWords (w' :: rest') = b :: t := by
        cases hJ : joinWords (w' :: rest') with
        | nil => exact absurd hJ hJne
        | cons b t => exact ⟨b, t, rfl⟩
      rw [hbt, List.getLast?_cons_cons, ← hbt] at hc
      exact ih (fun w'' hw'' => h w'' (by simp [hw''])) c hc

theorem dropWhile_eq_self_of_head (p : Char → Bool) (l : List Char)
    (h : ∀ c, l.head? = some c → p c = false) : l.dropWhile p = l := by
  cases l with
  | nil => rfl
  | cons a t =>
    have := h a rfl
    simp [List.dropWhile_cons, this]

theorem trimWs_eq_self (l : List Char)
    (h1 : ∀ c, l.head? = some c → rustIsWhitespace c = false)
    (h2 : ∀ c, l.getLast? = some c → rustIsWhitespace c = false) :
    trimWs l = l := by
  unfold trimWs
  rw [dropWhile_eq_self_of_head _ _ h1]
  rw [dropWhile_eq_self_of_head _ _ (by
    intro c hc
    rw [List.head?_reverse] at hc
    exact h2 c hc)]
  exact List.reverse_reverse l

theorem splitWsAux_word :
    ∀ (w rest acc : List Char), (∀ c ∈ w, rustIsWhitespace c = false) →
      splitWsAux (w ++ rest) acc = splitWsAux rest (w.reverse ++ acc) := by
  intro w
  induction w with
  | nil => intro rest acc _; simp
  | cons a t ih =>
    intro rest acc h
    have ha : rustIsWhitespace a = false := h a (by simp)
    rw [List.cons_append, splitWsAux, if_neg (by simp [ha])]
    rw [ih rest (a :: acc) (fun c hc => h c (by simp [hc]))]
    simp

theorem splitWs_joinWords :
    ∀ (ws : List (List Char)),
      (∀ w ∈ ws, w ≠ [] ∧ ∀ c ∈ w, rustIsWhitespace c = false) →
      splitWs (joinWords ws) = ws := by
  intro ws
  induction ws with
  | nil => intro _; rfl
  | cons w rest ih =>
    intro h
    have hw := h w (by simp)
    cases rest with
    | nil =>
      show splitWsAux (joinWords [w]) [] = [w]
      have : joinWords [w] = w ++ [] := by simp [joinWords]
      rw [this, splitWsAux_word w [] [] hw.2]
      rw [splitWsAux]
      simp [hw.1]
    | cons w' rest' =>
      show splitWsAux (joinWords (w :: w' :: rest')) [] = w :: w' :: rest'
      have hJ : joinWords (w :: w' :: rest') = w ++ ' ' :: joinWords (w' :: rest') := by
        simp [joinWords]
      rw [hJ, splitWsAux_word w _ [] hw.2]
      rw [splitWsAux, if_pos (by decide)]
      have hne : (w.reverse ++ []).isEmpty = false := by
        cases hwd : w with
        | nil => exact absurd hwd hw.1
        | cons a t => simp
      rw [hne]
      simp only [Bool.false_eq_true, if_false]
      have hIH := ih (fun w'' hw'' => h w'' (by simp [hw'']))
      rw [splitWs] at hIH
      rw [hIH]
      simp

theorem mapChar_idem (c : Char) : mapChar (mapChar c) = mapChar c := by
  by_cases h1 : c ∈ badChars
  · have : mapChar c = '_' := by simp [mapChar, h1]
    rw [this]
    decide
  · by_cases h2 : (c = '\n' || c = '\r' || c = '\t') = true
    · have : mapChar c = ' ' := by
        rw [mapChar, if_neg h1, if_pos h2]
      rw [this]
      decide
    · have : mapChar c = c := by
        rw [mapChar, if_neg h1, if_neg h2]
      rw [this, this]

theorem mapChar_not_bad (c : Char) : mapChar c ∉ badChars := by
  by_cases h1 : c ∈ badChars
  · have : mapChar c = '_' := by simp [mapChar, h1]
    rw [this]
    decide
  · by_cases h2 : (c = '\n' || c = '\r' || c = '\t') = true
    · have : mapChar c = ' ' := by
        rw [mapChar, if_neg h1, if_pos h2]
      rw [this]
      decide
    · have : mapChar c = c := by
        rw [mapChar, if_neg h1, if_neg h2]
      rw [this]
      exact h1

theorem joinWords_mem :
    ∀ (ws : List (List Char)) (c : Char), c ∈ joinWords ws →
      (∃ w ∈ ws, c ∈ w) ∨ c = ' ' := by
  intro ws
  induction ws with
  | nil => intro c hc; simp [joinWords] at hc
  | cons w rest ih =>
    intro c hc
    cases rest with
    | nil =>
      simp only [joinWords] at hc
      exact Or.inl ⟨w, by simp, hc⟩
    | cons w' rest' =>
      simp only [joinWords] at hc
      rcases List.mem_append.mp hc with h1 | h1
      · exact Or.inl ⟨w, by simp, h1⟩
      · rcases List.mem_cons.mp h1 with h2 | h2
        · exact Or.inr h2
        · rcases ih c h2 with ⟨w'', hw'', hcw⟩ | h3
          · exact Or.inl ⟨w'', by simp [hw''], hcw⟩
          · exact Or.inr h3

theorem noWsRun_cons_of_not (a : Char) (rest : List Char)
    (ha : rustIsWhitespace a = false) (h : noWsRun rest = true) :
    noWsRun (a :: rest) = true := by
  cases rest with
  | nil => rfl
  | cons b t => simp [noWsRun, ha, h]

theorem noWsRun_cons_of_head (a : Char) (rest : List Char)
    (hrest : ∀ c, rest.head? = some c → rustIsWhitespace c = false)
    (h : noWsRun rest = true) : noWsRun (a :: rest) = true := by
  cases rest with
  | nil => rfl
  | cons b t =>
    have hb := hrest b rfl
    simp [noWsRun, hb, h]

theorem noWsRun_append_words :
    ∀ (w r : List Char), (∀ c ∈ w, rustIsWhitespace c = false) →
      noWsRun r = true → noWsRun (w ++ r) = true := by
  intro w
  induction w with
  | nil => intro r _ h; simpa using h
  | cons a t ih =>
    intro r h hr
    rw [List.cons_append]
    exact noWsRun_cons_of_not a (t ++ r) (h a (by simp))
      (ih r (fun c hc => h c (by simp [hc])) hr)

theorem noWsRun_joinWords :
    ∀ (ws : List (List Char)),
      (∀ w ∈ ws, w ≠ [] ∧ ∀ c ∈ w, rustIsWhitespace c = false) →
      noWsRun (joinWords ws) = true := by
  intro ws
  induction ws with
  | nil => intro _; rfl
  | cons w rest ih =>
    intro h
    have hw := h w (by simp)
    cases rest with
    | nil =>
      have : joinWords [w] = w ++ [] := by simp [joinWords]
      rw [this]
      exact noWsRun_append_words w [] hw.2 rfl
    | cons w' rest' =>
      have hJ : joinWords (w :: w' :: rest') = w ++ ' ' :: joinWords (w' :: rest') := by
        simp [joinWords]
      rw [hJ]
      refine noWsRun_append_words w _ hw.2 ?_
      refine noWsRun_cons_of_head ' ' _ ?_ (ih (fun w'' hw'' => h w'' (by simp [hw''])))
      intro c hc
      exact joinWords_head_not_ws (w' :: rest')
        (fun w'' hw'' => h w'' (by simp [hw''])) c hc

theorem map_id_on (f : Char → Char) :
    ∀ (l : List Char), (∀ c ∈ l, f c = c) → l.map f = l := by
  intro l
  induction l with
  | nil => intro _; rfl
  | cons a t ih =>
    intro h
    rw [List.map_cons, h a (by simp), ih (fun c hc => h c (by simp [hc]))]

/-- The word list underlying `sanitize_filename x`. -/
theorem sanitize_filename_eq_joinWords (x : String) :
    sanitize_filename x = ⟨joinWords (splitWs (x.data.map mapChar))⟩ := by
  have hW := splitWsAux_sound (x.data.map mapChar) [] (by intro c hc; simp at hc)
  have hW' : ∀ w ∈ splitWs (x.data.map mapChar), w ≠ [] ∧
      ∀ c ∈ w, rustIsWhitespace c = false := by
    intro w hw
    exact ⟨(hW w hw).1, fun c hc => ((hW w hw).2 c hc).1⟩
  unfold sanitize_filename
  rw [trimWs_eq_self _ (joinWords_head_not_ws _ hW') (joinWords_last_not_ws _ hW')]

/-! ## Claims C8 and C7 -/

/-- C8: the sanitizer's output contains none of the nine invalid filename
characters, no tab, newline, or carriage return, every whitespace character
in it is a plain space with no two adjacent (runs collapsed), and trimming it
changes nothing (no leading or trailing whitespace). -/
theorem spec_C8 (x : String) :
    (∀ c ∈ (sanitize_filename x).data, c ∉ badChars) ∧
    (∀ c ∈ (sanitize_filename x).data, c ≠ '\t' ∧ c ≠ '\n' ∧ c ≠ '\r') ∧
    (∀ c ∈ (sanitize_filename x).data, rustIsWhitespace c = true → c = ' ') ∧
    noWsRun (sanitize_filename x).data = true ∧
    trimWs (sanitize_filename x).data = (sanitize_filename x).data := by
  have hW := splitWsAux_sound (x.data.map mapChar) [] (by intro c hc; simp at hc)
  have hW' : ∀ w ∈ splitWs (x.data.map mapChar), w ≠ [] ∧
      ∀ c ∈ w, rustIsWhitespace c = false :=
    fun w hw => ⟨(hW w hw).1, fun c hc => ((hW w hw).2 c hc).1⟩
  have hdata : (sanitize_filename x).data = joinWords (splitWs (x.data.map mapChar)) := by
    rw [sanitize_filename_eq_joinWords x]
  have hchar : ∀ c ∈ (sanitize_filename x).data,
      c = ' ' ∨ (rustIsWhitespace c = false ∧ c ∈ x.data.map mapChar) := by
    intro c hc
    rw [hdata] at hc
    rcases joinWords_mem _ c hc with ⟨w, hw, hcw⟩ | hsp
    · refine Or.inr ⟨((hW w hw).2 c hcw).1, ?_⟩
      rcases ((hW w hw).2 c hcw).2 with h | h
      · exact h
      · simp at h
    · exact Or.inl hsp
  refine ⟨?_, ?_, ?_, ?_, ?_⟩
  · intro c hc
    rcases hchar c hc with h | ⟨_, hmem⟩
    · rw [h]; decide
    · obtain ⟨c₀, _, hc₀⟩ := List.mem_map.mp hmem
      rw [← hc₀]
      exact mapChar_not_bad c₀
  · intro c hc
    rcases hchar c hc with h | ⟨hws, _⟩
    · rw [h]
      refine ⟨by decide, by decide, by decide⟩
    · refine ⟨?_, ?_, ?_⟩ <;>
        (intro habs; rw [habs] at hws; exact absurd hws (by decide))
  · intro c hc hws
    rcases hchar c hc with h | ⟨hws', _⟩
    · exact h
    · rw [hws'] at hws
      exact absurd hws (by decide)
  · rw [hdata]
    exact noWsRun_joinWords _ hW'
  · rw [hdata]
    exact trimWs_eq_self _ (joinWords_head_not_ws _ hW') (joinWords_last_not_ws _ hW')

/-- Witness for C8 at the concrete title `" a:b\tc "`. -/
theorem spec_C8_witness :
    sanitize_filename " a:b\tc " = "a_b c" ∧
    '_' ∉ badChars ∧
    trimWs (sanitize_filename " a:b\tc ").data = (sanitize_filename " a:b\tc ").data :=
  ⟨by decide, (spec_C8 " a:b\tc ").1 '_' (by decide), (spec_C8 " a:b\tc ").2.2.2.2⟩

/-- C7: the sanitizer is idempotent. -/
theorem spec_C7 (x : String) :
    sanitize_filename (sanitize_filename x) = sanitize_filename x := by
  have hW := splitWsAux_sound (x.data.map mapChar) [] (by intro c hc; simp at hc)
  have hW' : ∀ w ∈ splitWs (x.data.map mapChar), w ≠ [] ∧
      ∀ c ∈ w, rustIsWhitespace c = false :=
    fun w hw => ⟨(hW w hw).1, fun c hc => ((hW w hw).2 c hc).1⟩
  have hid : ∀ c ∈ joinWords (splitWs (x.data.map mapChar)), mapChar c = c := by
    intro c hc
    rcases joinWords_mem _ c hc with ⟨w, hw, hcw⟩ | hsp
    · have hcl : c ∈ x.data.map mapChar := by
        rcases ((hW w hw).2 c hcw).2 with h | h
        · exact h
        · simp at h
      obtain ⟨c₀, _, hc₀⟩ := List.mem_map.mp hcl
      rw [← hc₀, mapChar_idem]
    · rw [hsp]; decide
  rw [sanitize_filename_eq_joinWords x]
  show (⟨trimWs (joinWords (splitWs
      ((joinWords (splitWs (x.data.map mapChar))).map mapChar)))⟩ : String) =
    ⟨joinWords (splitWs (x.data.map mapChar))⟩
  rw [map_id_on mapChar _ hid, splitWs_joinWords _ hW']
  exact sanitize_filename_eq_joinWords x

end PodcastArchiver
